import Mathlib

/-!
Verification of the mutual-fund analytics engine (mf_reflex/src/analytics.py).

The engine is a set of pure numerical transforms over a NAV (price) time
series.  We embed it shallowly: a price series is a list of ticks carrying an
absolute day ordinal, a calendar month index and a positive rational price;
float arithmetic is modelled exactly over ℚ (field operations) and ℝ (square
roots, real powers, logarithms).  A float value that IEEE arithmetic would turn
non-finite (log of a non-positive number, NaN propagation through a fold) is
modelled by `Option`: `none` stands for a non-finite float.
-/

namespace MF

/-- One observation of the NAV series: a timestamp (absolute day ordinal plus
its calendar month index, the two pieces of the date the engine actually
reads) and the price on that date. -/
structure Tick where
  day : ℤ
  month : ℤ
  price : ℚ
deriving DecidableEq

/-- A NAV time series, as handed to the engine by the data layer. -/
abbrev PriceSeries := List Tick

/-- The price column of a series. -/
def prices (s : PriceSeries) : List ℚ := s.map Tick.price

/-- Adjacent-pair strict increase of a tick projection, as a Boolean check
(`strictOn Tick.day s` is the PriceSeries timestamp invariant). -/
def strictOn {α : Type} [LinearOrder α] (g : Tick → α) : List Tick → Bool
  | [] => true
  | [_] => true
  | x :: y :: rest => (decide (g x < g y)) && strictOn g (y :: rest)

/-- Adjacent-pair non-decrease of a rational list. -/
def leChain : List ℚ → Bool
  | [] => true
  | [_] => true
  | x :: y :: rest => (decide (x ≤ y)) && leChain (y :: rest)

/-- Arithmetic mean of a list, `xs.mean()`; the empty list gives `0/0 = 0`. -/
def mean (xs : List ℚ) : ℚ := xs.sum / (xs.length : ℚ)

/-- Sample variance with `ddof = 1`, the square of pandas `Series.std()`:
with fewer than 2 observations the `0/0` (or empty-count) denominator makes
the statistic NaN, encoded `none`. -/
def sampleVar? (xs : List ℚ) : Option ℚ :=
  if xs.length < 2 then none
  else some (((xs.map (fun x => (x - mean xs) ^ 2)).sum) / ((xs.length : ℚ) - 1))

/-- Population variance, the square of `np.std`. -/
def popVar (xs : List ℚ) : ℚ :=
  ((xs.map (fun x => (x - mean xs) ^ 2)).sum) / (xs.length : ℚ)

/-- Daily simple returns, `series.pct_change().dropna()`: one entry per
adjacent pair of prices, `p[i+1]/p[i] - 1`. -/
def dailyReturns (xs : List ℚ) : List ℚ :=
  (xs.zip xs.tail).map (fun p => p.2 / p.1 - 1)

/-- `calculate_cagr` (analytics.py:9-22): 0.0 for fewer than 2 points, 0.0
when the series spans a non-positive number of days, otherwise
`(end/start) ** (1/years) - 1` with `years = days / 365.25`. -/
noncomputable def calculate_cagr (s : PriceSeries) : ℝ :=
  if s.length < 2 then 0 else
  match s with
  | [] => 0
  | t :: rest =>
    let lastT := rest.getLastD t
    let days : ℤ := lastT.day - t.day
    let years : ℝ := (days : ℝ) / 365.25
    if years ≤ 0 then 0 else ((lastT.price / t.price : ℚ) : ℝ) ^ ((1 : ℝ) / years) - 1

/-- `calculate_rolling_returns` (analytics.py:24-35).  The window is
`int(window_years * 252)`; the series divided by its `shift(window)` has its
first `window` entries undefined, so after `dropna` entry `i` pairs
`price[i+window]` with `price[i]`.  `int(...)` is modelled by `Nat.floor`,
which agrees with Python for the non-negative windows every caller uses. -/
noncomputable def calculate_rolling_returns (s : PriceSeries) (wy : ℚ) : List ℝ :=
  if s.length = 0 then [] else
  if s.length < ⌊wy * 252⌋₊ then [] else
  (((prices s).drop ⌊wy * 252⌋₊).zip (prices s)).map
    (fun p => ((p.1 / p.2 : ℚ) : ℝ) ^ ((1 : ℝ) / (wy : ℝ)) - 1)

/-- `calculate_downside_deviation` (analytics.py:37-58): sum of squares of the
strictly negative daily returns, divided by the count of ALL daily returns,
square-rooted and scaled by `sqrt 252`. -/
noncomputable def calculate_downside_deviation (s : PriceSeries) : ℝ :=
  if s.length < 2 then 0 else
  let returns := dailyReturns (prices s)
  if returns = [] then 0 else
  let x := returns.filter (fun r => decide (r < 0))
  let y := (x.map (fun r => r ^ 2)).sum
  let z := y / (returns.length : ℚ)
  Real.sqrt (z : ℝ) * Real.sqrt 252

/-- Running maximum continuation: `runningMaxAux m xs` is the tail of
`cummax` once the maximum over the consumed prefix is `m`. -/
def runningMaxAux (m : ℚ) : List ℚ → List ℚ
  | [] => []
  | x :: xs => max m x :: runningMaxAux (max m x) xs

/-- `series.cummax()`: the running maximum up to and including each point. -/
def runningMax : List ℚ → List ℚ
  | [] => []
  | x :: xs => x :: runningMaxAux x xs

/-- The drawdown column `(price - cummax) / cummax` of a series. -/
def ddList (s : PriceSeries) : List ℚ :=
  ((prices s).zip (runningMax (prices s))).map (fun p => (p.1 - p.2) / p.2)

/-- Minimum of a list, `series.min()`; only used behind a non-empty guard,
0 for the empty list. -/
def listMin : List ℚ → ℚ
  | [] => 0
  | x :: xs => xs.foldl min x

/-- `calculate_drawdowns` (analytics.py:122-131): the drawdown series paired
with its minimum; `(empty, 0.0)` for an empty input. -/
def calculate_drawdowns (s : PriceSeries) : List ℚ × ℚ :=
  if s.length = 0 then ([], 0) else (ddList s, listMin (ddList s))

/-- Lags 2..19 used by the Hurst estimator. -/
def hurstLags : List ℕ := List.range' 2 18

/-- `vals[lag:] - vals[:-lag]`: the lagged differences of the price column. -/
def lagDiffs (vals : List ℚ) (lag : ℕ) : List ℚ :=
  List.zipWith (fun a b => a - b) (vals.drop lag) (vals.take (vals.length - lag))

/-- `np.sqrt(np.std(vals[lag:] - vals[:-lag]))`: the square root of the
population standard deviation of the lagged differences. -/
noncomputable def tauOf (vals : List ℚ) (lag : ℕ) : ℝ :=
  Real.sqrt (Real.sqrt ((popVar (lagDiffs vals lag) : ℚ) : ℝ))

/-- IEEE `np.log` modelled exactly where it is finite: a non-positive
argument yields a non-finite float (`-inf` or NaN), encoded `none`. -/
noncomputable def safeLog (x : ℝ) : Option ℝ :=
  if x ≤ 0 then none else some (Real.log x)

/-- Sequence a list of possibly non-finite values: one non-finite entry
poisons the aggregate, exactly as NaN/∞ poison a least-squares fit. -/
def seqOption {α : Type} : List (Option α) → Option (List α)
  | [] => some []
  | x :: xs => x.bind (fun a => (seqOption xs).map (fun l => a :: l))

/-- Slope of the degree-1 least-squares fit `np.polyfit(xs, ys, 1)[0]`. -/
noncomputable def polyfitSlope (xs ys : List ℝ) : ℝ :=
  let n : ℝ := (xs.length : ℝ)
  let sx := xs.sum
  let sy := ys.sum
  let sxy := (List.zipWith (fun a b => a * b) xs ys).sum
  let sxx := (xs.map (fun x => x ^ 2)).sum
  (n * sxy - sx * sy) / (n * sxx - sx ^ 2)

/-- `calculate_hurst` (analytics.py:103-120): neutral 0.5 below 100 points;
otherwise twice the slope of `log lag` against `log (tau lag)`.  When some
`tau` is 0 the logarithm is non-finite and the fitted slope is non-finite,
encoded `none`. -/
noncomputable def calculate_hurst (s : PriceSeries) : Option ℝ :=
  if s.length < 100 then some 0.5 else
  let vals := prices s
  match seqOption (hurstLags.map (fun lag => safeLog (tauOf vals lag))) with
  | none => none
  | some logTau =>
      some (polyfitSlope (hurstLags.map (fun lag => Real.log (lag : ℝ))) logTau * 2)

/-- Annualized volatility `returns.std() * np.sqrt(252)` of a series; `none`
is the NaN pandas produces when fewer than 2 daily returns exist. -/
noncomputable def volatilityOf (s : PriceSeries) : Option ℝ :=
  (sampleVar? (dailyReturns (prices s))).map
    (fun v : ℚ => Real.sqrt (v : ℝ) * Real.sqrt 252)

/-- The losses denominator of the omega ratio:
`abs(returns[returns <= threshold].sum())` with threshold `rf/252`. -/
def lossesOf (rf : ℚ) (returns : List ℚ) : ℚ :=
  |(returns.filter (fun r => decide (r ≤ rf / 252))).sum|

/-- The gains numerator of the omega ratio:
`returns[returns > threshold].sum()`. -/
def gainsOf (rf : ℚ) (returns : List ℚ) : ℚ :=
  (returns.filter (fun r => decide (rf / 252 < r))).sum

/-- The record returned by `calculate_risk_metrics`; `none` in the
volatility and sharpe fields is a non-finite float (NaN). -/
structure RiskMetrics where
  volatility : Option ℝ
  sharpe_ratio : Option ℝ
  sortino_ratio : ℝ
  downside_deviation : ℝ
  calmar_ratio : ℝ
  omega_ratio : ℚ
  hurst_exponent : Option ℝ
  cagr : ℝ

/-- `calculate_risk_metrics` (analytics.py:60-101): the empty record (`none`)
for fewer than 2 points or no defined daily return; otherwise the bundle of
ratios, each ratio falling back to 0 when its own denominator is 0.  A NaN
volatility (single daily return) satisfies Python's `volatility != 0`, so the
division is taken and the sharpe ratio is NaN as well, encoded `none`. -/
noncomputable def calculate_risk_metrics (rf : ℚ) (s : PriceSeries) : Option RiskMetrics :=
  if s.length < 2 then none else
  let returns := dailyReturns (prices s)
  if returns = [] then none else
  let volatility := volatilityOf s
  let mean_return : ℚ := mean returns * 252
  let cagr := calculate_cagr s
  let excess : ℚ := mean_return - rf
  let sharpe : Option ℝ := match volatility with
    | none => none
    | some v => if v ≠ 0 then some ((excess : ℝ) / v) else some 0
  let downside_dev := calculate_downside_deviation s
  let sortino : ℝ := if downside_dev ≠ 0 then (excess : ℝ) / downside_dev else 0
  let max_dd := (calculate_drawdowns s).2
  let calmar : ℝ := if max_dd ≠ 0 then cagr / ((|max_dd| : ℚ) : ℝ) else 0
  let gains := gainsOf rf returns
  let losses := lossesOf rf returns
  let omega : ℚ := if losses ≠ 0 then gains / losses else 0
  some { volatility := volatility, sharpe_ratio := sharpe, sortino_ratio := sortino,
         downside_deviation := downside_dev, calmar_ratio := calmar, omega_ratio := omega,
         hurst_exponent := calculate_hurst s, cagr := cagr }

/-- Consecutive month indexes `m0, m0+1, ..., m1` (the resampler's bins). -/
def monthsList (m0 m1 : ℤ) : List ℤ :=
  (List.range ((m1 - m0).toNat + 1)).map (fun i : ℕ => m0 + (i : ℤ))

/-- First NAV inside month bin `m`, `resample('BMS').first()` for one bin;
`none` is the NaN of an empty bin. -/
def monthFirstNav (s : PriceSeries) (m : ℤ) : Option ℚ :=
  ((s.filter (fun t => decide (t.month = m))).head?).map Tick.price

/-- The month bins the SIP loop iterates over: every month from the first
tick's month through the last tick's month. -/
def sipMonths (s : PriceSeries) : List ℤ :=
  match s with
  | [] => []
  | t :: rest => monthsList t.month (rest.getLastD t).month

/-- Number of month bins visited by the SIP simulation. -/
def binCount (s : PriceSeries) : ℕ := (sipMonths s).length

/-- The record returned by `calculate_sip_returns`; `none` in a field is a
NaN bred by an empty month bin. -/
structure SIPResult where
  current_value : Option ℚ
  total_invested : ℚ
  absolute_return : Option ℚ
  total_units : Option ℚ

/-- `calculate_sip_returns` (analytics.py:133-164): one fixed contribution per
month bin; units bought at the bin's first NAV (an empty bin's NaN poisons the
unit total), invested amount accumulated unconditionally; absolute return is
gain over invested, guarded by `total_invested > 0`. -/
def calculate_sip_returns (s : PriceSeries) (sip : ℚ) : Option SIPResult :=
  match s with
  | [] => none
  | t :: rest =>
    let lastT := rest.getLastD t
    let navs := (sipMonths (t :: rest)).map (monthFirstNav (t :: rest))
    let total_units : Option ℚ :=
      navs.foldl (fun acc nav => acc.bind (fun a => nav.map (fun v => a + sip / v))) (some 0)
    let total_invested : ℚ := navs.foldl (fun acc _ => acc + sip) 0
    let current_value : Option ℚ := total_units.map (fun u => u * lastT.price)
    let total_gain : Option ℚ := current_value.map (fun cv => cv - total_invested)
    let absolute_return : Option ℚ :=
      if 0 < total_invested then total_gain.map (fun g => g / total_invested) else some 0
    some ⟨current_value, total_invested, absolute_return, total_units⟩

/-- Inner join of fund and benchmark on the date index:
`pd.DataFrame({'fund': f, 'bench': b}).dropna()` keeps exactly the dates
present in both series. -/
def joinSeries (f b : PriceSeries) : List (Tick × ℚ) :=
  f.filterMap (fun t => (b.find? (fun u => decide (u.day = t.day))).map (fun u => (t, u.price)))

/-- Month-end value of the joined frame in bin `m`, `resample('ME').last()`
for one bin; `none` is the NaN of an empty bin. -/
def monthLastJoined (l : List (Tick × ℚ)) (m : ℤ) : Option (ℚ × ℚ) :=
  ((l.filter (fun p => decide (p.1.month = m))).getLast?).map (fun p => (p.1.price, p.2))

/-- The month bins spanned by the joined frame. -/
def joinedMonths (l : List (Tick × ℚ)) : List ℤ :=
  match l with
  | [] => []
  | p :: rest => monthsList p.1.month ((rest.getLastD p).1.month)

/-- Month-end fund/bench value per bin. -/
def monthlyJoined (l : List (Tick × ℚ)) : List (Option (ℚ × ℚ)) :=
  (joinedMonths l).map (monthLastJoined l)

/-- Monthly simple returns of the joined frame after `dropna`: a row survives
exactly when both adjacent month-end values are defined. -/
def monthlyRet (l : List (Tick × ℚ)) : List (ℚ × ℚ) :=
  ((monthlyJoined l).zip (monthlyJoined l).tail).filterMap
    (fun q => q.1.bind (fun a => q.2.map (fun b => (b.1 / a.1 - 1, b.2 / a.2 - 1))))

/-- The record returned by `calculate_capture_ratios`. -/
structure CaptureResult where
  upside : ℚ
  downside : ℚ
deriving DecidableEq

/-- `calculate_capture_ratios` (analytics.py:166-188): inner join, month-end
resample, split months on the sign of the benchmark return; each capture is
the ratio of mean fund to mean benchmark return in its bucket (×100), 0 for
an empty bucket.  The only short-input guard is the empty joined frame. -/
def calculate_capture_ratios (f b : PriceSeries) : CaptureResult :=
  let df := joinSeries f b
  if df = [] then ⟨0, 0⟩ else
  let monthly := monthlyRet df
  let ups := monthly.filter (fun p => decide (0 < p.2))
  let downs := monthly.filter (fun p => decide (p.2 ≤ 0))
  let upside_ratio := if ups = [] then 0 else mean (ups.map Prod.fst) / mean (ups.map Prod.snd)
  let downside_ratio :=
    if downs = [] then 0 else mean (downs.map Prod.fst) / mean (downs.map Prod.snd)
  ⟨upside_ratio * 100, downside_ratio * 100⟩

/-- Least-squares slope of `ys` against `xs` over ℚ (`np.polyfit(xs, ys, 1)`,
first coefficient). -/
def olsSlope (xs ys : List ℚ) : ℚ :=
  let n : ℚ := (xs.length : ℚ)
  let sx := xs.sum
  let sy := ys.sum
  let sxy := (List.zipWith (fun a b => a * b) xs ys).sum
  let sxx := (xs.map (fun x => x ^ 2)).sum
  (n * sxy - sx * sy) / (n * sxx - sx ^ 2)

/-- Least-squares intercept of `ys` against `xs` over ℚ. -/
def olsIntercept (xs ys : List ℚ) : ℚ :=
  (ys.sum - olsSlope xs ys * xs.sum) / (xs.length : ℚ)

/-- Pearson correlation of two equally long columns, `np.corrcoef(xs, ys)[0,1]`. -/
noncomputable def pearson (xs ys : List ℚ) : ℝ :=
  let cov : ℚ := (List.zipWith (fun a b => (a - mean xs) * (b - mean ys)) xs ys).sum
  let vx : ℚ := (xs.map (fun x => (x - mean xs) ^ 2)).sum
  let vy : ℚ := (ys.map (fun y => (y - mean ys) ^ 2)).sum
  (cov : ℝ) / (Real.sqrt (vx : ℝ) * Real.sqrt (vy : ℝ))

/-- The record returned by `calculate_alpha_beta`; `none` in the last two
fields models the keys the short-input fallback dict omits (or, for the
information ratio, a non-finite value bred by a NaN tracking error — which
cannot occur past the 20-point guard, where at least 19 active returns
exist). -/
structure ABResult where
  alpha : ℚ
  beta : ℚ
  r_squared : ℝ
  info_ratio : Option ℝ
  batting_average : Option ℚ

/-- `calculate_alpha_beta` (analytics.py:190-236): inner join; fewer than 20
joined points returns the zero fallback; otherwise OLS of daily fund excess
returns on benchmark excess returns, annualized alpha, squared correlation,
information ratio and batting average. -/
noncomputable def calculate_alpha_beta (rf : ℚ) (f b : PriceSeries) : ABResult :=
  let df := joinSeries f b
  if df.length < 20 then ⟨0, 0, 0, none, none⟩ else
  let f_ret := dailyReturns (df.map (fun p => p.1.price))
  let b_ret := dailyReturns (df.map (fun p => p.2))
  let daily_rf := rf / 252
  let f_excess := f_ret.map (fun r => r - daily_rf)
  let b_excess := b_ret.map (fun r => r - daily_rf)
  let beta := olsSlope b_excess f_excess
  let alpha_daily := olsIntercept b_excess f_excess
  let r_squared : ℝ := (pearson b_excess f_excess) ^ 2
  let active := List.zipWith (fun a b => a - b) f_ret b_ret
  let tracking_error : Option ℝ :=
    (sampleVar? active).map (fun v : ℚ => Real.sqrt (v : ℝ) * Real.sqrt 252)
  let info : Option ℝ := match tracking_error with
    | none => none
    | some te => if te ≠ 0 then some (((mean active : ℚ) : ℝ) * 252 / te) else some 0
  let batting : ℚ :=
    mean (List.zipWith (fun x y => if y < x then (1 : ℚ) else 0) f_ret b_ret) * 100
  ⟨alpha_daily * 252, beta, r_squared, info, some batting⟩

/-- `calculate_fund_multiplier` (analytics.py:238-241): `last/first`, 1.0 for
an empty series. -/
def calculate_fund_multiplier (s : PriceSeries) : ℚ :=
  match s with
  | [] => 1
  | t :: rest => (rest.getLastD t).price / t.price

/-! Spec-side definitions, written from the specification's words, to be
compared with the definitions above (which follow the source). -/

/-- CAGR as the specification words it: 0.0 below 2 points or for a span of
not more than 0 days, otherwise `(last/first) ^ (365.25/days) - 1` with
`days` the day count between the first and last timestamps. -/
noncomputable def cagrSpec (s : PriceSeries) : ℝ :=
  if s.length < 2 then 0 else
  match s with
  | [] => 0
  | t :: rest =>
    let lastT := rest.getLastD t
    let days : ℤ := lastT.day - t.day
    if days ≤ 0 then 0
    else ((lastT.price / t.price : ℚ) : ℝ) ^ ((365.25 : ℝ) / (days : ℝ)) - 1

/-- Downside deviation as the specification words it: square root of the sum
of squares of the strictly negative daily returns over the count of ALL
return observations, scaled by `sqrt 252`; 0 below 2 points or with no
defined return. -/
noncomputable def downsideDeviationSpec (s : PriceSeries) : ℝ :=
  if s.length < 2 then 0 else
  let returns := dailyReturns (prices s)
  if returns = [] then 0 else
  Real.sqrt (((((returns.filter (fun r => decide (r < 0))).map (fun r => r ^ 2)).sum /
    (returns.length : ℚ) : ℚ) : ℝ)) * Real.sqrt 252

/-- The omega ratio as the claim words it: threshold-excess mass above the
threshold over threshold-shortfall mass at or below it — the sum of
`r - threshold` over returns strictly above the threshold, divided by the sum
of `|r - threshold|` over returns at or below it; 0 when that denominator
is 0. -/
def omegaClaimed (rf : ℚ) (returns : List ℚ) : ℚ :=
  let threshold := rf / 252
  let g := ((returns.filter (fun r => decide (threshold < r))).map (fun r => r - threshold)).sum
  let l := ((returns.filter (fun r => decide (r ≤ threshold))).map (fun r => |r - threshold|)).sum
  if l = 0 then 0 else g / l

/-- The omega ratio the code actually computes, worded as the amended claim:
the plain sum of returns strictly above the threshold, divided by the
absolute value of the plain sum of returns at or below it; 0 when that
absolute sum is 0. -/
def omegaAmendedSpec (rf : ℚ) (returns : List ℚ) : ℚ :=
  let g := gainsOf rf returns
  let l := lossesOf rf returns
  if l = 0 then 0 else g / l

/-! Concrete input series used by counterexamples and witnesses. -/

/-- Three daily prices 1, 2, 1: daily returns `[1, -1/2]`. -/
def exOmega : PriceSeries := [⟨0, 0, 1⟩, ⟨1, 0, 2⟩, ⟨2, 0, 1⟩]

/-- Three daily prices 2100, 2101, 2101: daily returns `[1/2100, 0]`, whose
annualized mean is exactly the default risk-free rate 6%. -/
def exSharpe : PriceSeries := [⟨0, 0, 2100⟩, ⟨1, 0, 2101⟩, ⟨2, 0, 2101⟩]

/-- Fund series for the capture-ratio counterexample: two points in two
consecutive months. -/
def exCapFund : PriceSeries := [⟨0, 0, 1⟩, ⟨40, 1, 2⟩]

/-- Benchmark series sharing both dates with `exCapFund`. -/
def exCapBench : PriceSeries := [⟨0, 0, 1⟩, ⟨40, 1, 4⟩]

/-- A single-point series: vacuously monotone, with a positive price. -/
def exSingle : PriceSeries := [⟨0, 0, 5⟩]

/-- A strictly increasing two-point series. -/
def exMono : PriceSeries := [⟨0, 0, 1⟩, ⟨7, 0, 2⟩]

/-- A constant series of `n` ticks with price `c`, one per day. -/
def constTicks (c : ℚ) : ℕ → ℤ → PriceSeries
  | 0, _ => []
  | n + 1, d => ⟨d, 0, c⟩ :: constTicks c n (d + 1)

/-! Structural lemmas about the embedding. -/

theorem dailyReturns_length (xs : List ℚ) : (dailyReturns xs).length = xs.length - 1 := by
  simp [dailyReturns]

theorem dailyReturns_ne_nil {s : PriceSeries} (h : 2 ≤ s.length) :
    dailyReturns (prices s) ≠ [] := by
  have hl : (dailyReturns (prices s)).length = s.length - 1 := by
    rw [dailyReturns_length]; simp [prices]
  have hpos : 0 < (dailyReturns (prices s)).length := by omega
  exact List.ne_nil_of_length_pos hpos

theorem foldl_min_le_init : ∀ (l : List ℚ) (a : ℚ), l.foldl min a ≤ a := by
  intro l
  induction l with
  | nil => intro a; exact le_refl a
  | cons x xs ih =>
    intro a
    calc (x :: xs).foldl min a = xs.foldl min (min a x) := rfl
    _ ≤ min a x := ih (min a x)
    _ ≤ a := min_le_left a x

theorem foldl_min_le_mem : ∀ (l : List ℚ) (a x : ℚ), x ∈ l → l.foldl min a ≤ x := by
  intro l
  induction l with
  | nil => intro a x hx; simp at hx
  | cons y ys ih =>
    intro a x hx
    rcases List.mem_cons.1 hx with rfl | hx
    · calc (x :: ys).foldl min a = ys.foldl min (min a x) := rfl
      _ ≤ min a x := foldl_min_le_init ys (min a x)
      _ ≤ x := min_le_right a x
    · exact ih (min a y) x hx

theorem foldl_min_mem_or : ∀ (l : List ℚ) (a : ℚ), l.foldl min a = a ∨ l.foldl min a ∈ l := by
  intro l
  induction l with
  | nil => intro a; exact Or.inl rfl
  | cons y ys ih =>
    intro a
    rcases ih (min a y) with h | h
    · have hf : (y :: ys).foldl min a = min a y := h
      rcases min_choice a y with hm | hm
      · exact Or.inl (by rw [hf, hm])
      · exact Or.inr (by rw [hf, hm]; exact List.mem_cons_self y ys)
    · exact Or.inr (List.mem_cons_of_mem y h)

theorem listMin_le {l : List ℚ} {x : ℚ} (hx : x ∈ l) : listMin l ≤ x := by
  cases l with
  | nil => simp at hx
  | cons y ys =>
    rcases List.mem_cons.1 hx with rfl | hx
    · exact foldl_min_le_init ys x
    · exact foldl_min_le_mem ys y x hx

theorem listMin_mem {l : List ℚ} (h : l ≠ []) : listMin l ∈ l := by
  cases l with
  | nil => exact absurd rfl h
  | cons y ys =>
    rcases foldl_min_mem_or ys y with h1 | h1
    · rw [listMin, h1]; exact List.mem_cons_self y ys
    · exact List.mem_cons_of_mem y h1

theorem runningMaxAux_length : ∀ (xs : List ℚ) (m : ℚ),
    (runningMaxAux m xs).length = xs.length := by
  intro xs
  induction xs with
  | nil => intro m; rfl
  | cons x xs ih => intro m; simp [runningMaxAux, ih]

theorem runningMax_length (xs : List ℚ) : (runningMax xs).length = xs.length := by
  cases xs with
  | nil => rfl
  | cons x xs => simp [runningMax, runningMaxAux_length]

theorem runningMaxAux_zip_le : ∀ (xs : List ℚ) (m : ℚ),
    ∀ pr ∈ xs.zip (runningMaxAux m xs), pr.1 ≤ pr.2 := by
  intro xs
  induction xs with
  | nil => intro m pr hpr; simp at hpr
  | cons x xs ih =>
    intro m pr hpr
    rw [runningMaxAux, List.zip_cons_cons] at hpr
    rcases List.mem_cons.1 hpr with rfl | hpr
    · exact le_max_right m x
    · exact ih (max m x) pr hpr

theorem runningMax_zip_le (xs : List ℚ) :
    ∀ pr ∈ xs.zip (runningMax xs), pr.1 ≤ pr.2 := by
  cases xs with
  | nil => intro pr hpr; simp at hpr
  | cons x xs =>
    intro pr hpr
    rw [runningMax, List.zip_cons_cons] at hpr
    rcases List.mem_cons.1 hpr with rfl | hpr
    · exact le_refl x
    · exact runningMaxAux_zip_le xs x pr hpr

theorem runningMaxAux_mem : ∀ (xs : List ℚ) (m y : ℚ),
    y ∈ runningMaxAux m xs → y = m ∨ y ∈ xs := by
  intro xs
  induction xs with
  | nil => intro m y hy; simp [runningMaxAux] at hy
  | cons x xs ih =>
    intro m y hy
    rw [runningMaxAux] at hy
    rcases List.mem_cons.1 hy with rfl | hy
    · rcases max_choice m x with h | h
      · exact Or.inl h
      · exact Or.inr (by rw [h]; exact List.mem_cons_self x xs)
    · rcases ih (max m x) y hy with h | h
      · rcases max_choice m x with h2 | h2
        · exact Or.inl (by rw [h, h2])
        · exact Or.inr (by rw [h, h2]; exact List.mem_cons_self x xs)
      · exact Or.inr (List.mem_cons_of_mem x h)

theorem runningMax_mem {xs : List ℚ} {y : ℚ} (hy : y ∈ runningMax xs) : y ∈ xs := by
  cases xs with
  | nil => simp [runningMax] at hy
  | cons x xs =>
    rw [runningMax] at hy
    rcases List.mem_cons.1 hy with rfl | hy
    · exact List.mem_cons_self y xs
    · rcases runningMaxAux_mem xs x y hy with h | h
      · rw [h]; exact List.mem_cons_self x xs
      · exact List.mem_cons_of_mem x h

theorem runningMaxAux_eq_self : ∀ (xs : List ℚ) (m : ℚ),
    leChain (m :: xs) = true → runningMaxAux m xs = xs := by
  intro xs
  induction xs with
  | nil => intro m _; rfl
  | cons x xs ih =>
    intro m h
    have h1 : m ≤ x ∧ leChain (x :: xs) = true := by
      simpa [leChain, Bool.and_eq_true, decide_eq_true_eq] using h
    rw [runningMaxAux, max_eq_right h1.1, ih x h1.2]

theorem runningMax_eq_self {xs : List ℚ} (h : leChain xs = true) : runningMax xs = xs := by
  cases xs with
  | nil => rfl
  | cons x xs => rw [runningMax, runningMaxAux_eq_self xs x h]

theorem zip_self : ∀ (xs : List ℚ), xs.zip xs = xs.map (fun x => (x, x)) := by
  intro xs
  induction xs with
  | nil => rfl
  | cons x xs ih => rw [List.zip_cons_cons, ih]; rfl

theorem ddList_length (s : PriceSeries) : (ddList s).length = s.length := by
  simp [ddList, runningMax_length, prices]

theorem calculate_drawdowns_fst (s : PriceSeries) : (calculate_drawdowns s).1 = ddList s := by
  by_cases h : s.length = 0
  · have hnil : s = [] := List.length_eq_zero.mp h
    subst hnil
    simp [calculate_drawdowns, ddList, prices, runningMax]
  · simp [calculate_drawdowns, h]

theorem strictOn_head_last {α : Type} [LinearOrder α] (g : Tick → α) :
    ∀ (rest : List Tick) (t : Tick), strictOn g (t :: rest) = true → rest ≠ [] →
      g t < g (rest.getLastD t) := by
  intro rest
  induction rest with
  | nil => intro t _ hne; exact absurd rfl hne
  | cons r rs ih =>
    intro t h _
    have h1 : g t < g r ∧ strictOn g (r :: rs) = true := by
      simpa [strictOn, Bool.and_eq_true, decide_eq_true_eq] using h
    rw [List.getLastD_cons]
    cases rs with
    | nil => simpa using h1.1
    | cons r2 rs2 => exact lt_trans h1.1 (ih r h1.2 (by simp))

theorem strictOn_price_leChain : ∀ (s : PriceSeries),
    strictOn Tick.price s = true → leChain (prices s) = true := by
  intro s
  induction s with
  | nil => intro _; rfl
  | cons t rest ih =>
    cases rest with
    | nil => intro _; rfl
    | cons u us =>
      intro h
      have h1 : t.price < u.price ∧ strictOn Tick.price (u :: us) = true := by
        simpa [strictOn, Bool.and_eq_true, decide_eq_true_eq] using h
      have h2 : leChain (prices (u :: us)) = true := ih h1.2
      show leChain (t.price :: prices (u :: us)) = true
      have hc : prices (u :: us) = u.price :: prices us := rfl
      rw [hc] at h2 ⊢
      simp [leChain, Bool.and_eq_true, decide_eq_true_eq]
      exact ⟨h1.1.le, h2⟩

theorem zipWith_sub_const {c : ℚ} : ∀ (xs ys : List ℚ),
    (∀ x ∈ xs, x = c) → (∀ y ∈ ys, y = c) →
    ∀ z ∈ List.zipWith (fun a b => a - b) xs ys, z = 0 := by
  intro xs
  induction xs with
  | nil => intro ys _ _ z hz; simp at hz
  | cons x xs ih =>
    intro ys hx hy z hz
    cases ys with
    | nil => simp at hz
    | cons y ys =>
      rw [List.zipWith_cons_cons] at hz
      rcases List.mem_cons.1 hz with rfl | hz
      · rw [hx x (by simp), hy y (by simp), sub_self]
      · exact ih ys (fun a ha => hx a (List.mem_cons_of_mem x ha))
          (fun a ha => hy a (List.mem_cons_of_mem y ha)) z hz

theorem popVar_eq_zero {l : List ℚ} (h : ∀ x ∈ l, x = 0) : popVar l = 0 := by
  have hs : l.sum = 0 := List.sum_eq_zero h
  have hm : mean l = 0 := by simp [mean, hs]
  have h2 : ∀ y ∈ l.map (fun x => (x - mean l) ^ 2), y = 0 := by
    intro y hy
    rcases List.mem_map.1 hy with ⟨x, hx, rfl⟩
    rw [h x hx, hm]
    norm_num
  simp [popVar, List.sum_eq_zero h2]

theorem seqOption_map_none {α β : Type} (f : β → Option α) :
    ∀ (l : List β) (x : β), x ∈ l → f x = none → seqOption (l.map f) = none := by
  intro l
  induction l with
  | nil => intro x hx; simp at hx
  | cons y ys ih =>
    intro x hx hfx
    rcases List.mem_cons.1 hx with rfl | hx
    · simp [seqOption, hfx]
    · cases hfy : f y with
      | none => simp [seqOption, hfy]
      | some a => simp [seqOption, hfy, ih x hx hfx]

theorem foldl_add_const (sip : ℚ) : ∀ (l : List (Option ℚ)) (a : ℚ),
    l.foldl (fun acc _ => acc + sip) a = a + sip * l.length := by
  intro l
  induction l with
  | nil => intro a; simp
  | cons x xs ih =>
    intro a
    rw [List.foldl_cons, ih, List.length_cons]
    push_cast
    ring

theorem monthsList_length (m0 m1 : ℤ) : (monthsList m0 m1).length = (m1 - m0).toNat + 1 := by
  rw [monthsList, List.length_map, List.length_range]

theorem calculate_drawdowns_snd {s : PriceSeries} (h : s ≠ []) :
    (calculate_drawdowns s).2 = listMin (ddList s) := by
  have h0 : ¬ s.length = 0 := by simpa [List.length_eq_zero] using h
  simp [calculate_drawdowns, h0]

theorem calculate_risk_metrics_eq (rf : ℚ) (s : PriceSeries) (h : 2 ≤ s.length) :
    calculate_risk_metrics rf s = some
      { volatility := volatilityOf s,
        sharpe_ratio := match volatilityOf s with
          | none => none
          | some v => if v ≠ 0 then
              some (((mean (dailyReturns (prices s)) * 252 - rf : ℚ) : ℝ) / v) else some 0,
        sortino_ratio := if calculate_downside_deviation s ≠ 0 then
          ((mean (dailyReturns (prices s)) * 252 - rf : ℚ) : ℝ) /
            calculate_downside_deviation s else 0,
        downside_deviation := calculate_downside_deviation s,
        calmar_ratio := if (calculate_drawdowns s).2 ≠ 0 then
          calculate_cagr s / ((|(calculate_drawdowns s).2| : ℚ) : ℝ) else 0,
        omega_ratio := if lossesOf rf (dailyReturns (prices s)) ≠ 0 then
          gainsOf rf (dailyReturns (prices s)) / lossesOf rf (dailyReturns (prices s)) else 0,
        hurst_exponent := calculate_hurst s,
        cagr := calculate_cagr s } := by
  have h1 : ¬ s.length < 2 := not_lt.mpr h
  have h2 : dailyReturns (prices s) ≠ [] := dailyReturns_ne_nil h
  simp [calculate_risk_metrics, h1, h2]

/-! Claim theorems. -/

/-- C6: for every price series, `cagr` returns 0.0 when the series has fewer
than 2 points or spans ≤ 0 days between its first and last timestamp, and
otherwise returns `(last/first) ^ (365.25/days) - 1` with `days` the actual
day count between the first and last timestamps. -/
theorem cagr_matches_spec (s : PriceSeries) : calculate_cagr s = cagrSpec s := by
  cases s with
  | nil => rfl
  | cons t rest =>
    by_cases h : (t :: rest).length < 2
    · have hr : rest = [] := by
        cases rest with
        | nil => rfl
        | cons a l => exfalso; simp only [List.length_cons] at h; omega
      subst hr
      rfl
    · have hd : ((((rest.getLastD t).day - t.day : ℤ) : ℝ) / 365.25 ≤ 0) ↔
          (((rest.getLastD t).day - t.day : ℤ) ≤ 0) := by
        rw [div_nonpos_iff]
        constructor
        · rintro (⟨h1, h2⟩ | ⟨h1, h2⟩)
          · norm_num at h2
          · exact_mod_cast h1
        · intro hle
          exact Or.inr ⟨by exact_mod_cast hle, by norm_num⟩
      simp only [calculate_cagr, cagrSpec, h, if_false]
      by_cases hdays : ((rest.getLastD t).day - t.day : ℤ) ≤ 0
      · rw [if_pos (hd.mpr hdays), if_pos hdays]
      · rw [if_neg (fun hc => hdays (hd.mp hc)), if_neg hdays, one_div_div]

/-- C4: for every price series, `downsideDeviation` equals
`sqrt((sum of squares of strictly negative daily returns) / (count of ALL
daily returns)) * sqrt 252`; series with fewer than 2 points or no defined
return yield 0.0. -/
theorem downside_deviation_matches_spec (s : PriceSeries) :
    calculate_downside_deviation s = downsideDeviationSpec s := rfl

/-- C8: for every price series and window `w = int(windowYears * 252)`,
`rollingReturns` produces exactly `max 0 (length - w)` entries (truncated ℕ
subtraction); in particular a series whose length equals the window passes
the length guard but still yields the empty result. -/
theorem rolling_returns_count (s : PriceSeries) (wy : ℚ) (hwy : 0 < wy) :
    (calculate_rolling_returns s wy).length = s.length - ⌊wy * 252⌋₊ := by
  by_cases h0 : s.length = 0
  · simp [calculate_rolling_returns, h0]
  · by_cases h1 : s.length < ⌊wy * 252⌋₊
    · simp only [calculate_rolling_returns, h0, h1, if_true, if_false, List.length_nil]
      omega
    · simp only [calculate_rolling_returns, h0, h1, if_false, List.length_map,
        List.length_zip, List.length_drop]
      simp [prices]

/-- Witness for C8 at a concrete series and window. -/
theorem rolling_returns_count_witness :
    (0 : ℚ) < 1 ∧
    (calculate_rolling_returns exOmega 1).length = exOmega.length - ⌊(1 : ℚ) * 252⌋₊ :=
  ⟨by norm_num, rolling_returns_count exOmega 1 (by norm_num)⟩

/-- C1 counterexample: on prices 1, 2, 1 with the default 6% risk-free rate
the code's omega ratio is `1 / (1/2) = 2` (plain sums of returns), while the
claimed threshold-excess formula gives `4199/2101`; the two differ, so the
claim as stated is false. -/
theorem omega_ratio_counterexample :
    (calculate_risk_metrics (6/100) exOmega).map RiskMetrics.omega_ratio = some 2 ∧
    omegaClaimed (6/100) (dailyReturns (prices exOmega)) = 4199/2101 ∧
    (2 : ℚ) ≠ 4199/2101 := by
  refine ⟨?_, ?_, by norm_num⟩
  · rw [calculate_risk_metrics]
    norm_num [gainsOf, lossesOf, dailyReturns, prices, exOmega, List.filter, abs]
    exact ⟨_, ⟨by simp, rfl⟩, rfl⟩
  · norm_num [omegaClaimed, dailyReturns, prices, exOmega, List.filter, abs]

/-- C1 amended: for every risk-free rate and every price series with at least
2 points, the omega ratio equals the plain sum of daily returns strictly
above the threshold `rf/252` divided by the absolute value of the plain sum
of daily returns at or below the threshold, and 0 when that denominator
is 0 (returns are summed as they are, not reduced by the threshold). -/
theorem omega_ratio_amended (rf : ℚ) (s : PriceSeries) (h : 2 ≤ s.length) :
    (calculate_risk_metrics rf s).map RiskMetrics.omega_ratio =
      some (omegaAmendedSpec rf (dailyReturns (prices s))) := by
  rw [calculate_risk_metrics_eq rf s h, Option.map_some']
  rw [omegaAmendedSpec]
  by_cases hl : lossesOf rf (dailyReturns (prices s)) = 0
  · simp [hl]
  · simp [hl]

/-- Witness for the amended C1 at a concrete series. -/
theorem omega_ratio_amended_witness :
    2 ≤ exOmega.length ∧
    (calculate_risk_metrics (6/100) exOmega).map RiskMetrics.omega_ratio =
      some (omegaAmendedSpec (6/100) (dailyReturns (prices exOmega))) :=
  ⟨by decide, omega_ratio_amended (6/100) exOmega (by decide)⟩

/-- C3 counterexample: on prices 2100, 2101, 2101 with the default 6%
risk-free rate the annualized mean daily return equals the risk-free rate
exactly, so the sharpe ratio is a finite 0 while the volatility denominator
is a defined non-zero value; `sharpe = 0` therefore does not imply
`volatility = 0`, refuting the claimed equivalence. -/
theorem sharpe_zero_counterexample :
    (calculate_risk_metrics (6/100) exSharpe).map RiskMetrics.sharpe_ratio =
      some (some 0) ∧
    (calculate_risk_metrics (6/100) exSharpe).map RiskMetrics.volatility ≠
      some (some 0) := by
  have hv : sampleVar? (dailyReturns (prices exSharpe)) = some (1/8820000) := by
    norm_num [sampleVar?, mean, dailyReturns, prices, exSharpe]
  have hvol : volatilityOf exSharpe =
      some (Real.sqrt ((1/8820000 : ℚ) : ℝ) * Real.sqrt 252) := by
    rw [volatilityOf, hv, Option.map_some']
  have hpos : (0:ℝ) < Real.sqrt ((1/8820000 : ℚ) : ℝ) * Real.sqrt 252 :=
    mul_pos (Real.sqrt_pos.mpr (by norm_num)) (Real.sqrt_pos.mpr (by norm_num))
  have hexc : ((mean (dailyReturns (prices exSharpe)) * 252 - 6/100 : ℚ) : ℝ) = 0 := by
    norm_num [mean, dailyReturns, prices, exSharpe]
  rw [calculate_risk_metrics_eq (6/100) exSharpe (by decide)]
  constructor
  · rw [Option.map_some']
    simp only [hvol]
    rw [if_pos (ne_of_gt hpos), hexc]
    simp
  · rw [Option.map_some']
    simp only [hvol, ne_eq, Option.some_inj]
    exact fun hc => absurd hc (ne_of_gt hpos)

/-- C3 amended: for every risk-free rate and price series with at least 2
points, each of sharpe, sortino, calmar and omega equals 0 whenever its
respective denominator (volatility, downside deviation, max drawdown, losses
sum) is a defined, exact 0 — for sharpe this requires at least two daily
returns, since with a single daily return the ddof-1 volatility and hence the
sharpe ratio are NaN, not 0; the converse direction fails because a ratio is
also 0 whenever its numerator vanishes. -/
theorem ratio_zero_of_denominator_zero (rf : ℚ) (s : PriceSeries) (h : 2 ≤ s.length) :
    (volatilityOf s = some 0 →
      (calculate_risk_metrics rf s).map RiskMetrics.sharpe_ratio = some (some 0)) ∧
    (calculate_downside_deviation s = 0 →
      (calculate_risk_metrics rf s).map RiskMetrics.sortino_ratio = some 0) ∧
    ((calculate_drawdowns s).2 = 0 →
      (calculate_risk_metrics rf s).map RiskMetrics.calmar_ratio = some 0) ∧
    (lossesOf rf (dailyReturns (prices s)) = 0 →
      (calculate_risk_metrics rf s).map RiskMetrics.omega_ratio = some 0) := by
  rw [calculate_risk_metrics_eq rf s h]
  refine ⟨fun hv => ?_, fun hd => by simp [hd], fun hm => by simp [hm], fun hl => by simp [hl]⟩
  rw [Option.map_some']
  simp only [hv]
  simp

/-- Witness for the amended C3 at a concrete series. -/
theorem ratio_zero_of_denominator_zero_witness :
    2 ≤ exOmega.length ∧
    ((volatilityOf exOmega = some 0 →
      (calculate_risk_metrics (6/100) exOmega).map RiskMetrics.sharpe_ratio =
        some (some 0)) ∧
    (calculate_downside_deviation exOmega = 0 →
      (calculate_risk_metrics (6/100) exOmega).map RiskMetrics.sortino_ratio = some 0) ∧
    ((calculate_drawdowns exOmega).2 = 0 →
      (calculate_risk_metrics (6/100) exOmega).map RiskMetrics.calmar_ratio = some 0) ∧
    (lossesOf (6/100) (dailyReturns (prices exOmega)) = 0 →
      (calculate_risk_metrics (6/100) exOmega).map RiskMetrics.omega_ratio = some 0)) :=
  ⟨by decide, ratio_zero_of_denominator_zero (6/100) exOmega (by decide)⟩

/-- C2 counterexample: `exCapFund`/`exCapBench` share only 2 dates — far
fewer than 20 — yet `calculate_capture_ratios` does not return its neutral
`{0, 0}` default: it computes an upside capture of `100/3`.  Only the
regression transform carries the 20-point guard. -/
theorem capture_short_series_counterexample :
    (joinSeries exCapFund exCapBench).length < 20 ∧
    calculate_capture_ratios exCapFund exCapBench = ⟨100/3, 0⟩ ∧
    calculate_capture_ratios exCapFund exCapBench ≠ ⟨0, 0⟩ := by
  have hval : calculate_capture_ratios exCapFund exCapBench = ⟨100/3, 0⟩ := by
    norm_num [calculate_capture_ratios, joinSeries, exCapFund, exCapBench, monthlyRet,
      monthlyJoined, joinedMonths, monthsList, monthLastJoined, mean, List.filter,
      List.filterMap, List.find?, List.range_succ]
    simp
  refine ⟨by decide, hval, ?_⟩
  rw [hval]
  intro hc
  rw [CaptureResult.mk.injEq] at hc
  norm_num at hc

/-- C2 amended: both relative-performance transforms first inner-join the two
series on shared dates; `alphaBeta` returns its zero default whenever the
joined set has fewer than 20 points, while `captureRatios` returns its zero
default only when the joined set is empty (it computes capture statistics for
any non-empty joined set, however short). -/
theorem relative_transform_guards (rf : ℚ) (f b : PriceSeries) :
    ((joinSeries f b).length < 20 →
      calculate_alpha_beta rf f b = ⟨0, 0, 0, none, none⟩) ∧
    (joinSeries f b = [] → calculate_capture_ratios f b = ⟨0, 0⟩) := by
  constructor
  · intro h
    simp only [calculate_alpha_beta]
    rw [if_pos h]
  · intro h
    simp only [calculate_capture_ratios]
    rw [if_pos h]

/-- Witness for the amended C2 at concrete series. -/
theorem relative_transform_guards_witness :
    ((joinSeries exCapFund exCapBench).length < 20 ∧
      calculate_alpha_beta (6/100) exCapFund exCapBench = ⟨0, 0, 0, none, none⟩) ∧
    (joinSeries [] exCapBench = [] ∧ calculate_capture_ratios [] exCapBench = ⟨0, 0⟩) :=
  ⟨⟨by decide, (relative_transform_guards (6/100) exCapFund exCapBench).1 (by decide)⟩,
   ⟨by decide, (relative_transform_guards (6/100) [] exCapBench).2 (by decide)⟩⟩

/-- C5: for every price series with strictly positive prices, the drawdown
series is aligned 1:1 with the input; every drawdown is ≤ 0; the drawdown is
0 at the first point and at every index where the price equals its running
maximum; the reported max drawdown is a lower bound of, and a member of, the
drawdown series; and the empty series yields `(empty, 0.0)`. -/
theorem drawdowns_properties (s : PriceSeries) (hpos : ∀ t ∈ s, 0 < t.price) :
    (calculate_drawdowns s).1.length = s.length ∧
    (∀ q ∈ (calculate_drawdowns s).1, q ≤ 0) ∧
    (∀ t rest, s = t :: rest → (calculate_drawdowns s).1.head? = some 0) ∧
    (∀ i, ∀ h1 : i < (prices s).length, ∀ h2 : i < (runningMax (prices s)).length,
      ∀ h3 : i < (calculate_drawdowns s).1.length,
      (prices s)[i] = (runningMax (prices s))[i] → (calculate_drawdowns s).1[i] = 0) ∧
    (∀ q ∈ (calculate_drawdowns s).1, (calculate_drawdowns s).2 ≤ q) ∧
    (s ≠ [] → (calculate_drawdowns s).2 ∈ (calculate_drawdowns s).1) ∧
    (s = [] → calculate_drawdowns s = ([], 0)) := by
  have hq0 : ∀ q ∈ ddList s, q ≤ 0 := by
    intro q hq
    rcases List.mem_map.1 hq with ⟨pr, hpr, rfl⟩
    have hle : pr.1 ≤ pr.2 := runningMax_zip_le (prices s) pr hpr
    have hm : pr.2 ∈ prices s := runningMax_mem (List.of_mem_zip hpr).2
    rcases List.mem_map.1 hm with ⟨t, ht, hpt⟩
    have hp2 : 0 < pr.2 := hpt ▸ hpos t ht
    exact div_nonpos_iff.mpr (Or.inr ⟨sub_nonpos.mpr hle, hp2.le⟩)
  refine ⟨?_, ?_, ?_, ?_, ?_, ?_, ?_⟩
  · rw [calculate_drawdowns_fst, ddList_length]
  · intro q hq
    rw [calculate_drawdowns_fst] at hq
    exact hq0 q hq
  · intro t rest hs
    subst hs
    rw [calculate_drawdowns_fst]
    show (ddList (t :: rest)).head? = some 0
    simp [ddList, prices, runningMax, List.zip_cons_cons]
  · intro i h1 h2 h3 heq
    have hdd : (calculate_drawdowns s).1 = ddList s := calculate_drawdowns_fst s
    simp only [hdd, ddList, List.getElem_map, List.getElem_zip]
    rw [heq]
    simp
  · intro q hq
    rcases eq_or_ne s [] with rfl | hne
    · rw [calculate_drawdowns_fst] at hq
      simp [ddList, prices, runningMax] at hq
    · rw [calculate_drawdowns_snd hne]
      rw [calculate_drawdowns_fst] at hq
      exact listMin_le hq
  · intro hne
    rw [calculate_drawdowns_snd hne, calculate_drawdowns_fst]
    apply listMin_mem
    have hlen : (ddList s).length = s.length := ddList_length s
    have hp : 0 < (ddList s).length := by
      rw [hlen]
      exact List.length_pos.mpr hne
    exact List.ne_nil_of_length_pos hp
  · intro hs
    subst hs
    simp [calculate_drawdowns]

/-- Witness for C5 at a concrete positive series. -/
theorem drawdowns_properties_witness :
    (∀ t ∈ exOmega, 0 < t.price) ∧
    ((calculate_drawdowns exOmega).1.length = exOmega.length ∧
    (∀ q ∈ (calculate_drawdowns exOmega).1, q ≤ 0) ∧
    (∀ t rest, exOmega = t :: rest → (calculate_drawdowns exOmega).1.head? = some 0) ∧
    (∀ i, ∀ h1 : i < (prices exOmega).length,
      ∀ h2 : i < (runningMax (prices exOmega)).length,
      ∀ h3 : i < (calculate_drawdowns exOmega).1.length,
      (prices exOmega)[i] = (runningMax (prices exOmega))[i] →
        (calculate_drawdowns exOmega).1[i] = 0) ∧
    (∀ q ∈ (calculate_drawdowns exOmega).1, (calculate_drawdowns exOmega).2 ≤ q) ∧
    (exOmega ≠ [] → (calculate_drawdowns exOmega).2 ∈ (calculate_drawdowns exOmega).1) ∧
    (exOmega = [] → calculate_drawdowns exOmega = ([], 0))) :=
  ⟨by decide, drawdowns_properties exOmega (by decide)⟩

/-- C7 counterexample: the single-point series `exSingle` is (vacuously)
monotonically increasing with a strictly positive price, yet its fund
multiplier is exactly 1, not greater than 1 (and its cagr is 0), so the claim
as stated fails without a 2-point minimum. -/
theorem monotone_roundtrip_counterexample :
    strictOn Tick.price exSingle = true ∧ strictOn Tick.day exSingle = true ∧
    (∀ t ∈ exSingle, 0 < t.price) ∧
    ¬ (0 < calculate_cagr exSingle ∧ (calculate_drawdowns exSingle).2 = 0 ∧
       1 < calculate_fund_multiplier exSingle) := by
  refine ⟨by decide, by decide, by decide, ?_⟩
  rintro ⟨-, -, hm⟩
  have h1 : calculate_fund_multiplier exSingle = 1 := by
    norm_num [calculate_fund_multiplier, exSingle]
  rw [h1] at hm
  exact lt_irrefl 1 hm

/-- C7 amended: for every price series with at least 2 points, strictly
increasing timestamps, strictly increasing strictly positive prices, the cagr
is strictly positive, the max drawdown is 0, and the fund multiplier is
strictly greater than 1. -/
theorem monotone_roundtrip (s : PriceSeries) (h2 : 2 ≤ s.length)
    (hday : strictOn Tick.day s = true) (hpx : strictOn Tick.price s = true)
    (hpos : ∀ t ∈ s, 0 < t.price) :
    0 < calculate_cagr s ∧ (calculate_drawdowns s).2 = 0 ∧
      1 < calculate_fund_multiplier s := by
  cases s with
  | nil => simp at h2
  | cons t rest =>
    have hrest : rest ≠ [] := by
      intro h
      subst h
      simp at h2
    have hplt : t.price < (rest.getLastD t).price := strictOn_head_last Tick.price rest t hpx hrest
    have hdlt : t.day < (rest.getLastD t).day := strictOn_head_last Tick.day rest t hday hrest
    have htpos : 0 < t.price := hpos t (by simp)
    have hmul : 1 < calculate_fund_multiplier (t :: rest) := by
      show (1 : ℚ) < (rest.getLastD t).price / t.price
      exact (one_lt_div htpos).mpr hplt
    refine ⟨?_, ?_, hmul⟩
    · have hnl : ¬ (t :: rest).length < 2 := not_lt.mpr h2
      simp only [calculate_cagr, hnl, if_false]
      have hyears : (0:ℝ) < (((rest.getLastD t).day - t.day : ℤ) : ℝ) / 365.25 := by
        apply div_pos
        · exact_mod_cast sub_pos.mpr hdlt
        · norm_num
      rw [if_neg (not_le.mpr hyears)]
      have hx : (1:ℝ) < (((rest.getLastD t).price / t.price : ℚ) : ℝ) := by
        exact_mod_cast (one_lt_div htpos).mpr hplt
      have hy : (0:ℝ) < (1 : ℝ) / ((((rest.getLastD t).day - t.day : ℤ) : ℝ) / 365.25) :=
        one_div_pos.mpr hyears
      have hpow : (1:ℝ) < (((rest.getLastD t).price / t.price : ℚ) : ℝ) ^
          ((1 : ℝ) / ((((rest.getLastD t).day - t.day : ℤ) : ℝ) / 365.25)) :=
        (Real.one_lt_rpow_iff_of_pos (lt_trans one_pos hx)).mpr (Or.inl ⟨hx, hy⟩)
      linarith
    · have hle : leChain (prices (t :: rest)) = true := strictOn_price_leChain _ hpx
      have hrm : runningMax (prices (t :: rest)) = prices (t :: rest) := runningMax_eq_self hle
      have hdd0 : ∀ q ∈ ddList (t :: rest), q = 0 := by
        intro q hq
        rw [ddList, hrm, zip_self, List.map_map] at hq
        rcases List.mem_map.1 hq with ⟨x, hx, rfl⟩
        simp
      have hne : (t :: rest) ≠ [] := by simp
      rw [calculate_drawdowns_snd hne]
      apply hdd0
      apply listMin_mem
      have hp : 0 < (ddList (t :: rest)).length := by
        rw [ddList_length]
        simp
      exact List.ne_nil_of_length_pos hp

/-- Witness for the amended C7 at a concrete strictly increasing series. -/
theorem monotone_roundtrip_witness :
    (2 ≤ exMono.length ∧ strictOn Tick.day exMono = true ∧
      strictOn Tick.price exMono = true ∧ (∀ t ∈ exMono, 0 < t.price)) ∧
    (0 < calculate_cagr exMono ∧ (calculate_drawdowns exMono).2 = 0 ∧
      1 < calculate_fund_multiplier exMono) :=
  ⟨⟨by decide, by decide, by decide, by decide⟩,
   monotone_roundtrip exMono (by decide) (by decide) (by decide) (by decide)⟩

/-- C9: for every valid price series of at least 100 points whose prices are
all equal, every lagged difference is 0, so the Hurst computation takes the
logarithm of 0 and the result is non-finite (`none`), not the 0.5 neutral
fallback; the non-finite value also propagates into the `hurst_exponent`
field of the risk-metrics record. -/
theorem hurst_constant_series (rf : ℚ) (s : PriceSeries) (c : ℚ) (h100 : 100 ≤ s.length)
    (hc : ∀ t ∈ s, t.price = c) (hday : strictOn Tick.day s = true) (hcpos : 0 < c) :
    (∀ lag : ℕ, ∀ y ∈ lagDiffs (prices s) lag, y = 0) ∧
    calculate_hurst s = none ∧
    calculate_hurst s ≠ some 0.5 ∧
    (calculate_risk_metrics rf s).map RiskMetrics.hurst_exponent = some none := by
  have hv : ∀ x ∈ prices s, x = c := by
    intro x hx
    rcases List.mem_map.1 hx with ⟨t, ht, rfl⟩
    exact hc t ht
  have hlag : ∀ lag : ℕ, ∀ y ∈ lagDiffs (prices s) lag, y = 0 := by
    intro lag y hy
    exact zipWith_sub_const _ _ (fun x hx => hv x (List.mem_of_mem_drop hx))
      (fun x hx => hv x (List.mem_of_mem_take hx)) y hy
  have hpv : popVar (lagDiffs (prices s) 2) = 0 := popVar_eq_zero (hlag 2)
  have htau : tauOf (prices s) 2 = 0 := by
    rw [tauOf, hpv]
    simp
  have hsl : safeLog (tauOf (prices s) 2) = none := by
    rw [htau, safeLog, if_pos le_rfl]
  have hseq : seqOption (hurstLags.map (fun lag => safeLog (tauOf (prices s) lag))) = none :=
    seqOption_map_none _ hurstLags 2 (by decide) hsl
  have hh : calculate_hurst s = none := by
    have hn : ¬ s.length < 100 := not_lt.mpr h100
    simp only [calculate_hurst, hn, if_false]
    rw [hseq]
  refine ⟨hlag, hh, by rw [hh]; simp, ?_⟩
  rw [calculate_risk_metrics_eq rf s (by omega), Option.map_some']
  simp [hh]

/-- Witness for C9 at a concrete constant 100-point series. -/
theorem hurst_constant_series_witness :
    (100 ≤ (constTicks 7 100 0).length ∧ (∀ t ∈ constTicks 7 100 0, t.price = 7) ∧
      strictOn Tick.day (constTicks 7 100 0) = true ∧ (0 : ℚ) < 7) ∧
    (calculate_hurst (constTicks 7 100 0) = none ∧
      (calculate_risk_metrics (6/100) (constTicks 7 100 0)).map
        RiskMetrics.hurst_exponent = some none) :=
  ⟨⟨by decide, by decide, by decide, by decide⟩,
   ⟨(hurst_constant_series (6/100) (constTicks 7 100 0) 7 (by decide) (by decide)
      (by decide) (by decide)).2.1,
    (hurst_constant_series (6/100) (constTicks 7 100 0) 7 (by decide) (by decide)
      (by decide) (by decide)).2.2.2⟩⟩

/-- C10: for every non-empty price series and strictly positive contribution,
the SIP simulation visits at least one month bin, its total invested amount
equals the contribution times the number of month bins and is strictly
positive, and the absolute return is computed by the division branch (the
zero fallback guarding the division is unreachable). -/
theorem sip_invested_positive (s : PriceSeries) (sip : ℚ) (hne : s ≠ []) (hsip : 0 < sip) :
    ∃ r, calculate_sip_returns s sip = some r ∧
      r.total_invested = sip * (binCount s : ℚ) ∧
      0 < r.total_invested ∧ 1 ≤ binCount s ∧
      r.absolute_return = r.current_value.map
        (fun cv => (cv - r.total_invested) / r.total_invested) := by
  cases s with
  | nil => exact absurd rfl hne
  | cons t rest =>
    have hinv : ((sipMonths (t :: rest)).map (monthFirstNav (t :: rest))).foldl
        (fun acc _ => acc + sip) 0 = sip * (binCount (t :: rest) : ℚ) := by
      rw [foldl_add_const, List.length_map]
      simp [binCount]
    have hbc : 1 ≤ binCount (t :: rest) := by
      rw [binCount, sipMonths, monthsList_length]
      omega
    have hposq : (0 : ℚ) < (binCount (t :: rest) : ℚ) := by
      exact_mod_cast Nat.lt_of_lt_of_le Nat.zero_lt_one hbc
    have hp : 0 < sip * (binCount (t :: rest) : ℚ) := mul_pos hsip hposq
    simp only [calculate_sip_returns]
    refine ⟨_, rfl, ?_, ?_, hbc, ?_⟩
    · exact hinv
    · simp only [hinv]
      exact hp
    · have hc0 : 0 < ((sipMonths (t :: rest)).map (monthFirstNav (t :: rest))).foldl
          (fun acc _ => acc + sip) 0 := by
        rw [hinv]
        exact hp
      simp only [if_pos hc0, Option.map_map]
      rfl

/-- Witness for C10 at a concrete one-point series. -/
theorem sip_invested_positive_witness :
    (([⟨0, 0, 2⟩] : PriceSeries) ≠ [] ∧ (0 : ℚ) < 5) ∧
    (∃ r, calculate_sip_returns [⟨0, 0, 2⟩] 5 = some r ∧
      r.total_invested = 5 * (binCount [⟨0, 0, 2⟩] : ℚ) ∧
      0 < r.total_invested ∧ 1 ≤ binCount [⟨0, 0, 2⟩] ∧
      r.absolute_return = r.current_value.map
        (fun cv => (cv - r.total_invested) / r.total_invested)) :=
  ⟨⟨by decide, by decide⟩, sip_invested_positive [⟨0, 0, 2⟩] 5 (by decide) (by decide)⟩

end MF
